import Mathlib

/-!
Verification of the RLM core (orchestration engine, sandboxed execution
environment, recursive summarizer) of the Spandyie/RLM repository.

Python text values are embedded as lists of characters.  The external
collaborators of the core (the Model Client network backend and the host
Python interpreter invoked through `exec`) are modelled as oracles: the
Model Client is a function from the call index and the prompt to the
returned text, and the behaviour of one generated code fragment is an
interaction tree (`FragAct`) describing the calls the fragment makes into
the bindings the environment exposes (`llm_query`, `FINAL`, `FINAL_VAR`),
its eventual normal completion (final namespace plus captured stdout), or
a runtime fault.  Everything the repository itself implements — the
engine loop of `engine.py`, code extraction, the environment of
`environment.py` (namespace construction, variable persistence, `FINAL`,
`FINAL_VAR`, fault conversion) and the summarizer chunking of
`summarizer.py` — is translated directly from the source.
-/

/-- Python strings are embedded as lists of characters. -/
abbrev Str := List Char

/-- The single-quote character, used by the `FINAL_VAR` not-found message. -/
def squoteCh : Char := Char.ofNat 39

/-- Whitespace characters recognised by Python `str.strip` and `\s`. -/
def isPyWS (ch : Char) : Bool :=
  ch == ' ' || ch == '\t' || ch == '\n' || ch == '\r' || ch == '\x0b' || ch == '\x0c'

/-- Python `str.strip()`: remove leading and trailing whitespace. -/
def pyStrip (s : Str) : Str :=
  ((s.dropWhile isPyWS).reverse.dropWhile isPyWS).reverse

/-- Index of the first occurrence of `pat` in `hay`, as in `str.find` /
leftmost regex literal matching. -/
def indexOfSub : Str → Str → Option Nat
  | [], pat => if pat.isEmpty then some 0 else none
  | ch :: rest, pat =>
      if pat.isPrefixOf (ch :: rest) then some 0
      else (indexOfSub rest pat).map (· + 1)

/-- Python `pat in hay` substring test. -/
def containsSub (hay pat : Str) : Bool := (indexOfSub hay pat).isSome

/-- A dynamic Python value: a string, an integer, a boolean, `None`, or any
other object carried together with its `str()` rendering. -/
inductive PyVal where
  | vstr (s : Str)
  | vint (n : Int)
  | vbool (b : Bool)
  | vnone
  | vobj (rendered : Str)
deriving DecidableEq

/-- Python `str(v)`: the textual form of a value. -/
def pyStr : PyVal → Str
  | PyVal.vstr s => s
  | PyVal.vint n => (toString n).data
  | PyVal.vbool b => if b then ("True".data) else ("False".data)
  | PyVal.vnone => "None".data
  | PyVal.vobj r => r

/-- A Python dict mapping names to values (namespace / persisted variables). -/
abbrev PyNamespace := List (Str × PyVal)

/-- Dict lookup. -/
def dlookup : PyNamespace → Str → Option PyVal
  | [], _ => none
  | (k, v) :: rest, x => if k = x then some v else dlookup rest x

/-- Dict assignment `d[k] = v`: replace in place if the key is present,
otherwise append. -/
def dinsert : PyNamespace → Str → PyVal → PyNamespace
  | [], k, v => [(k, v)]
  | (k1, v1) :: rest, k, v =>
      if k1 = k then (k1, v) :: rest else (k1, v1) :: dinsert rest k v

/-- Python `d.update(o)`: assign every entry of `o` into `d`. -/
def dupdate (d o : PyNamespace) : PyNamespace :=
  o.foldl (fun acc kv => dinsert acc kv.1 kv.2) d

/-- The keys of a dict are pairwise distinct (every Python dict satisfies
this). -/
def nodupKeys (d : PyNamespace) : Prop := (d.map Prod.fst).Nodup

instance (d : PyNamespace) : Decidable (nodupKeys d) := by
  unfold nodupKeys; infer_instance

/-- The `skip` set of `RLMEnvironment._save_variables`: names never saved
into the persisted variables. -/
def skipNames : List Str :=
  ["context".data, "query".data, "llm_query".data, "FINAL".data, "FINAL_VAR".data,
   "re".data, "print".data, "len".data, "str".data, "int".data, "list".data,
   "dict".data, "range".data, "enumerate".data, "zip".data, "sorted".data,
   "min".data, "max".data, "sum".data, "True".data, "False".data, "None".data,
   "__builtins__".data]

/-- Python `name.startswith("_")`. -/
def startsUnderscore : Str → Bool
  | [] => false
  | ch :: _ => ch == '_'

/-- A namespace entry is copied into the persisted variables exactly when its
name is outside the skip set and does not start with an underscore
(`RLMEnvironment._save_variables`). -/
def eligibleName (n : Str) : Bool :=
  !(skipNames.contains n) && !(startsUnderscore n)

/-- `RLMEnvironment._save_variables`: iterate over the namespace after a
fragment has run and save every eligible binding into the persisted
variables. -/
def RLMEnvironment_saveVariables (vars ns : PyNamespace) : PyNamespace :=
  ns.foldl (fun acc kv => if eligibleName kv.1 then dinsert acc kv.1 kv.2 else acc) vars

/-- The message `FINAL_VAR` terminates with when the requested variable is
not bound: Error: Variable (quoted name) not found. -/
def notFoundMsg (name : Str) : Str :=
  "Error: Variable ".data ++ [squoteCh] ++ name ++ [squoteCh] ++ " not found".data

/-- The textual form `RLMEnvironment.execute` gives a runtime fault:
fault kind, colon, description. -/
def errText (kind msg : Str) : Str :=
  "Error: ".data ++ kind ++ ": ".data ++ msg

/-- An exception escaping fragment code: the `FinalAnswer` termination
signal, or any other runtime fault (kind and description). -/
inductive Exc where
  | finalAnswer (a : Str)
  | other (kind msg : Str)
deriving DecidableEq

/-- `RLMEnvironment._final`: `FINAL(value)` raises `FinalAnswer(str(value))`. -/
def RLMEnvironment_final (v : PyVal) : Exc := Exc.finalAnswer (pyStr v)

/-- `RLMEnvironment._final_var`: look the name up in the persisted variables
and raise `FinalAnswer` with its textual form, or with the not-found
message when absent. -/
def RLMEnvironment_finalVar (vars : PyNamespace) (name : Str) : Exc :=
  match dlookup vars name with
  | some v => Exc.finalAnswer (pyStr v)
  | none => Exc.finalAnswer (notFoundMsg name)

/-- One step of a run trace (`base.RLMStep`). -/
structure RLMStep where
  step_type : Str
  content : Str
  depth : Int := 0
deriving DecidableEq

/-- The value returned by a run (`base.RLMResult`). -/
structure RLMResult where
  query : Str
  context_length : Nat
  final_answer : Str
  steps : List RLMStep
  total_llm_calls : Nat
  success : Bool := true
  error : Option Str := none
deriving DecidableEq

/-- The prompts the engine sends to the Model Client, rendered algebraically
by the data each format string embeds: the initial system prompt (context
length and query), the follow-up prompt (previous output, or the fixed
no-output marker), and the sub-query prompt of `llm_callback`
(the Answer-concisely prefix applied to the fragment prompt). -/
inductive Prompt where
  | system (contextLen : Nat) (q : Str)
  | followup (outputShown : Str)
  | subquery (p : Str)
deriving DecidableEq

/-- The Model Client oracle: the text returned for the n-th `generate` call
of a run, given the prompt sent. -/
abbrev Client := Nat → Prompt → Str

/-- The interaction a fragment has with the sandbox bindings while `exec`
runs it: issue `llm_query` and continue with the answer, call `FINAL` or
`FINAL_VAR`, raise some other runtime fault, or complete normally leaving a
final namespace and captured stdout. -/
inductive FragAct where
  | finish (ns : PyNamespace) (out : Str)
  | callFinal (v : PyVal)
  | callFinalVar (name : Str)
  | raiseErr (kind msg : Str)
  | query (p : Str) (k : Str → FragAct)

/-- The host interpreter oracle: the behaviour of `exec(code, namespace)`
for a given code fragment and initial namespace. -/
abbrev PyExec := Str → PyNamespace → FragAct

/-- The engine bookkeeping threaded through every Model Client call:
accumulated steps, `total_llm_calls` so far, and the index of the next
client call. -/
structure CallSt where
  steps : List RLMStep
  llmCalls : Nat
  callIdx : Nat
deriving DecidableEq

/-- How `exec` ends: normal completion, or an exception. -/
inductive FragOutcome where
  | done (ns : PyNamespace) (out : Str)
  | raised (e : Exc)
deriving DecidableEq

/-- Truncation applied by `llm_callback` to the recorded sub-query prompt:
first 200 characters plus an ellipsis when longer than 200. -/
def truncPrompt (p : Str) : Str :=
  if 200 < p.length then p.take 200 ++ "...".data else p

/-- Run one fragment against the environment bindings: `llm_query` goes
through `llm_callback` (increment the call counter, record an `llm_call`
step, call the Model Client with the Answer-concisely prompt), `FINAL` and
`FINAL_VAR` raise through `_final` / `_final_var`, any other fault raises,
and normal completion returns the final namespace and stdout. -/
def runFragAct (cl : Client) (vars : PyNamespace) :
    FragAct → CallSt → FragOutcome × CallSt
  | FragAct.finish ns out, st => (FragOutcome.done ns out, st)
  | FragAct.callFinal v, st => (FragOutcome.raised (RLMEnvironment_final v), st)
  | FragAct.callFinalVar n, st => (FragOutcome.raised (RLMEnvironment_finalVar vars n), st)
  | FragAct.raiseErr kind msg, st => (FragOutcome.raised (Exc.other kind msg), st)
  | FragAct.query p k, st =>
      runFragAct cl vars (k (cl st.callIdx (Prompt.subquery p)))
        ⟨st.steps ++ [⟨"llm_call".data, truncPrompt p, 0⟩],
         st.llmCalls + 1, st.callIdx + 1⟩

/-- What `RLMEnvironment.execute` gives back to the engine: the captured
output returned normally, or the propagating `FinalAnswer` signal. -/
inductive ExecRet where
  | output (s : Str)
  | raiseFinal (a : Str)
deriving DecidableEq

/-- `RLMEnvironment.execute`: run the fragment; on normal completion save
eligible variables and return stdout; let `FinalAnswer` propagate; convert
any other fault into its textual form and return that as the output,
leaving the persisted variables untouched. -/
def RLMEnvironment_execute (cl : Client) (vars : PyNamespace) (act : FragAct)
    (st : CallSt) : ExecRet × PyNamespace × CallSt :=
  match runFragAct cl vars act st with
  | (FragOutcome.done ns out, st1) =>
      (ExecRet.output out, RLMEnvironment_saveVariables vars ns, st1)
  | (FragOutcome.raised (Exc.finalAnswer a), st1) => (ExecRet.raiseFinal a, vars, st1)
  | (FragOutcome.raised (Exc.other kind msg), st1) =>
      (ExecRet.output (errText kind msg), vars, st1)

/-- The namespace `RLMEnvironment.execute` builds before running a fragment:
the fixed bindings (context, query, the special functions, `re`, and the
whitelisted builtins). -/
def baseNamespace (context q : Str) : PyNamespace :=
  [("context".data, PyVal.vstr context), ("query".data, PyVal.vstr q),
   ("llm_query".data, PyVal.vobj ("builtin".data)),
   ("FINAL".data, PyVal.vobj ("builtin".data)),
   ("FINAL_VAR".data, PyVal.vobj ("builtin".data)),
   ("re".data, PyVal.vobj ("module".data)),
   ("print".data, PyVal.vobj ("builtin".data)),
   ("len".data, PyVal.vobj ("builtin".data)),
   ("str".data, PyVal.vobj ("builtin".data)),
   ("int".data, PyVal.vobj ("builtin".data)),
   ("list".data, PyVal.vobj ("builtin".data)),
   ("dict".data, PyVal.vobj ("builtin".data)),
   ("range".data, PyVal.vobj ("builtin".data)),
   ("enumerate".data, PyVal.vobj ("builtin".data)),
   ("zip".data, PyVal.vobj ("builtin".data)),
   ("sorted".data, PyVal.vobj ("builtin".data)),
   ("min".data, PyVal.vobj ("builtin".data)),
   ("max".data, PyVal.vobj ("builtin".data)),
   ("sum".data, PyVal.vobj ("builtin".data)),
   ("True".data, PyVal.vbool true),
   ("False".data, PyVal.vbool false),
   ("None".data, PyVal.vnone)]

/-- The full namespace a fragment starts from: the fixed bindings updated
with the variables persisted by previous fragments. -/
def buildNamespace (context q : Str) (vars : PyNamespace) : PyNamespace :=
  dupdate (baseNamespace context q) vars

/-- The leftmost match of the python-tagged fenced block pattern: the text
after the first occurrence of a python code fence opener, past the maximal
whitespace run, up to the first closing fence. -/
def findTaggedBlock (t : Str) : Option Str :=
  match indexOfSub t ("```python".data) with
  | none => none
  | some i =>
      let body := (t.drop (i + 9)).dropWhile isPyWS
      match indexOfSub body ("```".data) with
      | none => none
      | some m => some (body.take m)

/-- The leftmost match of the untagged fenced block pattern. -/
def findPlainBlock (t : Str) : Option Str :=
  match indexOfSub t ("```".data) with
  | none => none
  | some i =>
      let body := (t.drop (i + 3)).dropWhile isPyWS
      match indexOfSub body ("```".data) with
      | none => none
      | some m => some (body.take m)

/-- The executable-looking tokens `RLMEngine._extract_code` requires of an
untagged fenced block. -/
def pyKeywordHints : List Str :=
  ["print".data, "for".data, "if".data, "def".data, "=".data, "FINAL".data]

/-- `RLMEngine._extract_code`: prefer a python-tagged fenced block; otherwise
accept an untagged fenced block only when it contains an
executable-looking token; otherwise nothing. -/
def RLMEngine_extractCode (t : Str) : Option Str :=
  match findTaggedBlock t with
  | some g => some (pyStrip g)
  | none =>
      match findPlainBlock t with
      | some g =>
          let code := pyStrip g
          if pyKeywordHints.any (fun kw => containsSub code kw) then some code else none
      | none => none

/-- The engine loop state between iterations: persisted sandbox variables,
the trace so far, the call counters, and the prompt for the next
code-generation call. -/
structure LoopSt where
  vars : PyNamespace
  steps : List RLMStep
  llmCalls : Nat
  callIdx : Nat
  prompt : Prompt
deriving DecidableEq

/-- The result of one engine iteration: continue looping, or return. -/
inductive StepRes where
  | cont (st : LoopSt)
  | finished (r : RLMResult)
deriving DecidableEq

/-- The state a run starts from: no variables, no steps, no calls, the
system prompt built from the context length and the query. -/
def initLoopSt (q c : Str) : LoopSt :=
  ⟨[], [], 0, 0, Prompt.system c.length q⟩

/-- The immediate return taken when a response carries no extractable code:
the whole response becomes the final answer, one final step is appended,
success defaults to true. -/
def finalReturn (q c : Str) (st : CallSt) (response : Str) : RLMResult :=
  ⟨q, c.length, response, st.steps ++ [⟨"final".data, response, 0⟩], st.llmCalls, true, none⟩

/-- The fixed sentinel answer returned when the iteration budget runs out. -/
def sentinelAnswer : Str := "[Reached max iterations without final answer]".data

/-- The error text returned when the iteration budget runs out. -/
def maxIterError : Str := "Max iterations reached".data

/-- One iteration of the engine loop (`RLMEngine.run`, loop body): call the
Model Client, try to extract code (a falsy extraction — nothing or the
empty fragment — returns the response as the final answer), record the
code step, execute the fragment, and either return on the termination
signal or record the output step and continue with the follow-up prompt. -/
def RLMEngine_iterOnce (cl : Client) (pe : PyExec) (q c : Str) (st : LoopSt) : StepRes :=
  let response := cl st.callIdx st.prompt
  match RLMEngine_extractCode response with
  | none =>
      StepRes.finished (finalReturn q c ⟨st.steps, st.llmCalls + 1, st.callIdx + 1⟩ response)
  | some [] =>
      StepRes.finished (finalReturn q c ⟨st.steps, st.llmCalls + 1, st.callIdx + 1⟩ response)
  | some (ch :: chs) =>
      let code := ch :: chs
      let st2 : CallSt :=
        ⟨st.steps ++ [⟨"code".data, code, 0⟩], st.llmCalls + 1, st.callIdx + 1⟩
      match RLMEnvironment_execute cl st.vars (pe code (buildNamespace c q st.vars)) st2 with
      | (ExecRet.output out, vars2, st3) =>
          StepRes.cont ⟨vars2, st3.steps ++ [⟨"output".data, out, 0⟩],
            st3.llmCalls, st3.callIdx,
            Prompt.followup (if out = [] then ("(no output)".data) else out)⟩
      | (ExecRet.raiseFinal a, _, st3) =>
          StepRes.finished
            ⟨q, c.length, a, st3.steps ++ [⟨"final".data, a, 0⟩], st3.llmCalls, true, none⟩

/-- The engine loop with the remaining iteration budget as fuel; exhausted
fuel produces the sentinel budget result preserving all accumulated data. -/
def RLMEngine_runLoop (cl : Client) (pe : PyExec) (q c : Str) : Nat → LoopSt → RLMResult
  | 0, st =>
      ⟨q, c.length, sentinelAnswer, st.steps, st.llmCalls, false, some maxIterError⟩
  | fuel + 1, st =>
      match RLMEngine_iterOnce cl pe q c st with
      | StepRes.finished r => r
      | StepRes.cont st1 => RLMEngine_runLoop cl pe q c fuel st1

/-- `RLMEngine.run`: iterate up to `maxIterations` times from the initial
state. -/
def RLMEngine_run (cl : Client) (pe : PyExec) (q c : Str) (maxIterations : Nat) : RLMResult :=
  RLMEngine_runLoop cl pe q c maxIterations (initLoopSt q c)

/-- Iterate the loop body n times, provided every iteration continues;
gives the loop state reached after n completed iterations. -/
def RLMEngine_iterN (cl : Client) (pe : PyExec) (q c : Str) : Nat → LoopSt → Option LoopSt
  | 0, st => some st
  | n + 1, st =>
      match RLMEngine_iterOnce cl pe q c st with
      | StepRes.cont st1 => RLMEngine_iterN cl pe q c n st1
      | StepRes.finished _ => none

/-- Number of steps of a given kind in a trace. -/
def countKind (k : Str) (l : List RLMStep) : Nat :=
  l.countP (fun s => decide (s.step_type = k))

/-- The loop invariant after j completed iterations: j code steps, j output
steps, no final step, and a call counter equal to j code-generation calls
plus one call per recorded sub-query step. -/
def StInv (st : LoopSt) (j : Nat) : Prop :=
  countKind ("code".data) st.steps = j ∧
  countKind ("output".data) st.steps = j ∧
  countKind ("final".data) st.steps = 0 ∧
  st.llmCalls = j + countKind ("llm_call".data) st.steps

/-- Python `text.split` on the paragraph separator (two newlines),
accumulator-passing form. -/
def splitParas : Str → Str → List Str
  | [], cur => [cur.reverse]
  | '\n' :: '\n' :: rest, cur => cur.reverse :: splitParas rest []
  | ch :: rest, cur => splitParas rest (ch :: cur)

/-- The body of the paragraph loop of `RecursiveSummarizer._split`: overflow
emits the stripped accumulated chunk (when nonempty) and restarts from the
paragraph; otherwise the paragraph is joined onto the accumulator with the
paragraph separator. -/
def RecursiveSummarizer_splitStep (chunkSize : Nat) (acc : List Str × Str) (para : Str) :
    List Str × Str :=
  if chunkSize < acc.2.length + para.length then
    (if acc.2 = [] then acc.1 else acc.1 ++ [pyStrip acc.2], para)
  else
    (acc.1, if acc.2 = [] then para else acc.2 ++ "\n\n".data ++ para)

/-- `RecursiveSummarizer._split`: split the text into paragraphs, group them
greedily against the chunk size, and append the final stripped accumulator
when it is nonempty. -/
def RecursiveSummarizer_split (chunkSize : Nat) (text : Str) : List Str :=
  let paragraphs := splitParas text []
  let acc := paragraphs.foldl (RecursiveSummarizer_splitStep chunkSize) ([], [])
  if pyStrip acc.2 = [] then acc.1 else acc.1 ++ [pyStrip acc.2]

/-- The text held by the accumulator after joining a block of paragraphs
with the paragraph separator, left-associated exactly as the loop builds
it. -/
def joinSep : List Str → Str
  | [] => []
  | p :: ps => ps.foldl (fun acc q => acc ++ "\n\n".data ++ q) p

/-- A consecutive block of the paragraph list. -/
def consecRun (paras run : List Str) : Prop :=
  ∃ pre post, paras = pre ++ run ++ post

/-- A well-formed produced chunk: the stripped separator-join of a nonempty
consecutive block of whole paragraphs, within two characters of the chunk
size unless it is the strip of some whole paragraph. -/
abbrev GoodChunk (cs : Nat) (allP : List Str) (ch : Str) : Prop :=
  (∃ run, run ≠ [] ∧ consecRun allP run ∧ ch = pyStrip (joinSep run)) ∧
  (ch.length ≤ cs + 2 ∨ ∃ p ∈ allP, ch = pyStrip p)

/-- A well-formed accumulator while `rest` remains to process: empty, or
the separator-join of a nonempty block of paragraphs sitting immediately
before `rest`, within two characters of the chunk size unless it is one
whole paragraph. -/
abbrev GoodCur (cs : Nat) (allP rest : List Str) (cur : Str) : Prop :=
  cur = [] ∨ ∃ run pre, run ≠ [] ∧ cur = joinSep run ∧
    allP = pre ++ run ++ rest ∧ (cur.length ≤ cs + 2 ∨ run = [cur])

/-- Query text used by the concrete runs below. -/
def qW : Str := "what".data

/-- Context text used by the concrete runs below. -/
def cW : Str := "doc".data

/-- A client whose every response is a python-tagged fragment calling FINAL. -/
def clientFinal : Client := fun _ _ => "```python\nFINAL(42)\n```".data

/-- An interpreter oracle under which every fragment calls FINAL with 42. -/
def execFinal : PyExec := fun _ _ => FragAct.callFinal (PyVal.vstr ("42".data))

/-- A client whose every response is a python-tagged printing fragment. -/
def clientCode : Client := fun _ _ => "```python\nprint(1)\n```".data

/-- An interpreter oracle under which every fragment completes normally
with empty namespace and one line of output. -/
def execNop : PyExec := fun _ _ => FragAct.finish [] ("1\n".data)

/-- The loop state after two completed iterations of the clientCode and
execNop run. -/
def stN2 : LoopSt :=
  match RLMEngine_iterN clientCode execNop qW cW 2 (initLoopSt qW cW) with
  | some s => s
  | none => initLoopSt qW cW

/-- A client answering the code-generation call with a fragment that chains
a sub-query into FINAL, and the sub-query with a plain sub-answer. -/
def clientSub : Client :=
  fun n _ => if n = 0 then ("```python\nFINAL(llm_query(x))\n```".data) else ("subanswer".data)

/-- An interpreter oracle under which the fragment issues one sub-query and
terminates with its answer. -/
def execSub : PyExec :=
  fun _ _ => FragAct.query ("subq".data) (fun a => FragAct.callFinal (PyVal.vstr a))

/-- A fragment behaviour issuing n chained sub-queries before terminating. -/
def chainAct : Nat → FragAct
  | 0 => FragAct.callFinal (PyVal.vstr ("ok".data))
  | n + 1 => FragAct.query ("q".data) (fun _ => chainAct n)

/-- An interpreter oracle under which every fragment issues five chained
sub-queries and then terminates. -/
def execChain : PyExec := fun _ _ => chainAct 5

/-- An interpreter oracle under which every fragment raises a TypeError. -/
def execErr : PyExec := fun _ _ => FragAct.raiseErr ("TypeError".data) ("bad".data)

/-- A client whose every response is plain prose without any fenced block. -/
def clientProse : Client := fun _ _ => "The answer is Paris.".data

/-- Counting steps of a kind distributes over trace concatenation. -/
theorem countKind_append (k : Str) (l1 l2 : List RLMStep) :
    countKind k (l1 ++ l2) = countKind k l1 + countKind k l2 := by
  simp [countKind, List.countP_append]

/-- A trace consisting only of steps of kind k has count equal to its length. -/
theorem countKind_eq_length (k : Str) (L : List RLMStep)
    (h : ∀ s ∈ L, s.step_type = k) : countKind k L = L.length := by
  unfold countKind
  rw [List.countP_eq_length]
  intro a ha
  simpa using h a ha

/-- A trace with no step of kind k has count zero. -/
theorem countKind_eq_zero (k : Str) (L : List RLMStep)
    (h : ∀ s ∈ L, s.step_type ≠ k) : countKind k L = 0 := by
  unfold countKind
  rw [List.countP_eq_zero]
  intro a ha
  simpa using h a ha

/-- Executing a fragment only appends llm_call steps (one per sub-query, each
at depth 0) and advances both call counters by exactly that number. -/
theorem runFragAct_frame (cl : Client) (vars : PyNamespace) (act : FragAct) :
    ∀ st : CallSt, ∃ L : List RLMStep,
      (runFragAct cl vars act st).2 =
        ⟨st.steps ++ L, st.llmCalls + L.length, st.callIdx + L.length⟩ ∧
      ∀ s ∈ L, s.step_type = "llm_call".data ∧ s.depth = 0 := by
  induction act with
  | finish ns out => exact fun st => ⟨[], by simp [runFragAct], by simp⟩
  | callFinal v => exact fun st => ⟨[], by simp [runFragAct], by simp⟩
  | callFinalVar n => exact fun st => ⟨[], by simp [runFragAct], by simp⟩
  | raiseErr kind msg => exact fun st => ⟨[], by simp [runFragAct], by simp⟩
  | query p k ih =>
      intro st
      obtain ⟨L, hL, hall⟩ := ih (cl st.callIdx (Prompt.subquery p))
        ⟨st.steps ++ [⟨"llm_call".data, truncPrompt p, 0⟩], st.llmCalls + 1, st.callIdx + 1⟩
      refine ⟨⟨"llm_call".data, truncPrompt p, 0⟩ :: L, ?_, ?_⟩
      · show (runFragAct cl vars (k (cl st.callIdx (Prompt.subquery p)))
            ⟨st.steps ++ [⟨"llm_call".data, truncPrompt p, 0⟩],
             st.llmCalls + 1, st.callIdx + 1⟩).2 = _
        rw [hL]
        simp [CallSt.mk.injEq]
        omega
      · rintro s hs
        rcases List.mem_cons.mp hs with rfl | hs2
        · exact ⟨rfl, rfl⟩
        · exact hall s hs2

/-- Claim C3 (code bug evidence): in a run whose depth-0 fragment issues one
llm_query sub-query, the call counter rises by exactly one and exactly one
step is appended for it, but that step is recorded with depth 0, not the
enclosing depth plus 1 required by the claim (and by the depth convention
documented in base.py, 0 = main and 1+ = sub-calls). -/
theorem c3_llm_call_depth :
    (RLMEngine_run clientSub execSub qW cW 1).steps =
      [⟨"code".data, "FINAL(llm_query(x))".data, 0⟩,
       ⟨"llm_call".data, "subq".data, 0⟩,
       ⟨"final".data, "subanswer".data, 0⟩] ∧
    (RLMEngine_run clientSub execSub qW cW 1).total_llm_calls = 2 ∧
    (∃ s ∈ (RLMEngine_run clientSub execSub qW cW 1).steps,
      s.step_type = "llm_call".data ∧ s.depth = 0 ∧ ¬s.depth = 1) := by
  decide

/-- Claim C4 counterexample: a fragment issuing five chained sub-queries
completes with success and no error of any kind — no configured depth
ceiling causes any sub-query to fail with a distinguishable error, because
no such ceiling exists anywhere in the code. -/
theorem c4_counterexample_no_depth_error :
    (RLMEngine_run clientCode execChain qW cW 1).success = true ∧
    (RLMEngine_run clientCode execChain qW cW 1).error = none ∧
    countKind ("llm_call".data) (RLMEngine_run clientCode execChain qW cW 1).steps = 5 := by
  decide

/-- Claim C4 amended: run takes only the query and the context (the
iteration budget is fixed at engine construction); there is no max_depth
parameter and no depth enforcement: every llm_query sub-query is handled
unconditionally as a single direct Model Client call whose answer is
returned to the fragment, with no error path of any kind. -/
theorem c4_subquery_unbounded (cl : Client) (vars : PyNamespace) (p : Str)
    (k : Str → FragAct) (st : CallSt) :
    runFragAct cl vars (FragAct.query p k) st =
      runFragAct cl vars (k (cl st.callIdx (Prompt.subquery p)))
        ⟨st.steps ++ [⟨"llm_call".data, truncPrompt p, 0⟩],
         st.llmCalls + 1, st.callIdx + 1⟩ := rfl

/-- Claim C5: any runtime fault other than the termination signal is caught
inside execute and converted into the textual error message (fault kind and
description) returned as the fragment output, with the persisted variables
untouched; the FinalAnswer signal alone propagates out of execute; and at
the engine level a faulting fragment makes the loop continue with the error
text recorded as the output step. -/
theorem c5_fault_containment :
    (∀ (cl : Client) (vars : PyNamespace) (act : FragAct) (st st1 : CallSt) (kind msg : Str),
      runFragAct cl vars act st = (FragOutcome.raised (Exc.other kind msg), st1) →
      RLMEnvironment_execute cl vars act st = (ExecRet.output (errText kind msg), vars, st1)) ∧
    (∀ (cl : Client) (vars : PyNamespace) (act : FragAct) (st st1 : CallSt) (a : Str),
      runFragAct cl vars act st = (FragOutcome.raised (Exc.finalAnswer a), st1) →
      RLMEnvironment_execute cl vars act st = (ExecRet.raiseFinal a, vars, st1)) ∧
    (∀ (cl : Client) (pe : PyExec) (q c : Str) (st : LoopSt) (ch : Char) (chs : Str)
        (kind msg : Str) (st3 : CallSt),
      RLMEngine_extractCode (cl st.callIdx st.prompt) = some (ch :: chs) →
      runFragAct cl st.vars (pe (ch :: chs) (buildNamespace c q st.vars))
          ⟨st.steps ++ [⟨"code".data, ch :: chs, 0⟩], st.llmCalls + 1, st.callIdx + 1⟩
        = (FragOutcome.raised (Exc.other kind msg), st3) →
      RLMEngine_iterOnce cl pe q c st =
        StepRes.cont ⟨st.vars, st3.steps ++ [⟨"output".data, errText kind msg, 0⟩],
          st3.llmCalls, st3.callIdx,
          Prompt.followup
            (if errText kind msg = [] then ("(no output)".data) else errText kind msg)⟩) := by
  refine ⟨?_, ?_, ?_⟩
  · intro cl vars act st st1 kind msg h
    simp [RLMEnvironment_execute, h]
  · intro cl vars act st st1 a h
    simp [RLMEnvironment_execute, h]
  · intro cl pe q c st ch chs kind msg st3 hcode hfrag
    simp only [RLMEngine_iterOnce, hcode]
    simp [RLMEnvironment_execute, hfrag]

/-- Claim C5 witness: a TypeError fault becomes the textual output with
variables unchanged, a FINAL call propagates as the termination signal, and
the engine loop continues past a faulting fragment. -/
theorem c5_witness :
    RLMEnvironment_execute clientCode [] (FragAct.raiseErr ("TypeError".data) ("bad".data))
        ⟨[], 0, 0⟩
      = (ExecRet.output (errText ("TypeError".data) ("bad".data)), [], ⟨[], 0, 0⟩) ∧
    RLMEnvironment_execute clientCode [] (FragAct.callFinal (PyVal.vstr ("done".data)))
        ⟨[], 0, 0⟩
      = (ExecRet.raiseFinal ("done".data), [], ⟨[], 0, 0⟩) ∧
    RLMEngine_iterOnce clientCode execErr qW cW (initLoopSt qW cW) =
      StepRes.cont ⟨[], [⟨"code".data, "print(1)".data, 0⟩,
        ⟨"output".data, errText ("TypeError".data) ("bad".data), 0⟩], 1, 1,
        Prompt.followup (if errText ("TypeError".data) ("bad".data) = []
          then ("(no output)".data) else errText ("TypeError".data) ("bad".data))⟩ := by
  refine ⟨?_, ?_, ?_⟩
  · exact c5_fault_containment.1 clientCode [] _ _ _ _ _ (by decide)
  · exact c5_fault_containment.2.1 clientCode [] _ _ _ _ (by decide)
  · exact c5_fault_containment.2.2 clientCode execErr qW cW (initLoopSt qW cW)
      'p' ("rint(1)".data) ("TypeError".data) ("bad".data)
      ⟨[⟨"code".data, "print(1)".data, 0⟩], 1, 1⟩ (by decide) (by decide)

/-- Claim C9: FINAL_VAR looks the name up in the persisted variables and
always raises exactly the FinalAnswer termination signal — carrying the
textual form of the bound value, or the fixed not-found message when the
name is absent; execute propagates that signal and nothing else. -/
theorem c9_final_var_total (vars : PyNamespace) (name : Str) :
    RLMEnvironment_finalVar vars name =
      Exc.finalAnswer (match dlookup vars name with
        | some v => pyStr v
        | none => notFoundMsg name) ∧
    ∀ (cl : Client) (st : CallSt),
      RLMEnvironment_execute cl vars (FragAct.callFinalVar name) st =
        (ExecRet.raiseFinal (match dlookup vars name with
          | some v => pyStr v
          | none => notFoundMsg name), vars, st) := by
  cases h : dlookup vars name <;>
    exact ⟨by simp [RLMEnvironment_finalVar, h],
      fun cl st => by simp [RLMEnvironment_execute, runFragAct, RLMEnvironment_finalVar, h]⟩

/-- Claim C10: FINAL_VAR consults only the variables persisted by previously
completed fragments — the store passed to execute — never bindings made
earlier inside the currently executing fragment (those reach the store only
through the save step after exec returns normally); so when the name is
absent from the persisted store, FINAL_VAR terminates with the not-found
message regardless of what the fragment bound internally. -/
theorem c10_final_var_unpersisted (cl : Client) (vars : PyNamespace) (x : Str) (st : CallSt)
    (hx : dlookup vars x = none) :
    RLMEnvironment_execute cl vars (FragAct.callFinalVar x) st =
      (ExecRet.raiseFinal (notFoundMsg x), vars, st) := by
  simp [RLMEnvironment_execute, runFragAct, RLMEnvironment_finalVar, hx]

/-- Claim C10 witness: with an empty persisted store, FINAL_VAR on x
terminates with the not-found message. -/
theorem c10_witness :
    dlookup [] ("x".data) = none ∧
    RLMEnvironment_execute clientCode [] (FragAct.callFinalVar ("x".data)) ⟨[], 0, 0⟩ =
      (ExecRet.raiseFinal (notFoundMsg ("x".data)), [], ⟨[], 0, 0⟩) :=
  ⟨by decide, c10_final_var_unpersisted clientCode [] ("x".data) ⟨[], 0, 0⟩ (by decide)⟩

/-- Assigning a key makes it look up to the assigned value. -/
theorem dlookup_dinsert_self (m : PyNamespace) (k : Str) (v : PyVal) :
    dlookup (dinsert m k v) k = some v := by
  induction m with
  | nil => simp [dinsert, dlookup]
  | cons kv rest ih =>
      obtain ⟨k1, v1⟩ := kv
      by_cases h : k1 = k
      · simp [dinsert, h, dlookup]
      · simp [dinsert, h, dlookup, ih]

/-- Assigning one key leaves every other key unchanged. -/
theorem dlookup_dinsert_ne (m : PyNamespace) (k x : Str) (v : PyVal) (h : ¬k = x) :
    dlookup (dinsert m k v) x = dlookup m x := by
  induction m with
  | nil => simp [dinsert, dlookup, h]
  | cons kv rest ih =>
      obtain ⟨k1, v1⟩ := kv
      by_cases h1 : k1 = k <;> by_cases h2 : k1 = x
      · exact absurd (h1.symm.trans h2) h
      · subst h1
        simp [dinsert, dlookup, h2]
      · subst h2
        simp [dinsert, dlookup, h1]
      · simp [dinsert, h1, dlookup, h2, ih]

/-- Keys after an assignment: the assigned key plus the original keys. -/
theorem mem_keys_dinsert (m : PyNamespace) (k x : Str) (v : PyVal) :
    x ∈ (dinsert m k v).map Prod.fst ↔ x = k ∨ x ∈ m.map Prod.fst := by
  induction m with
  | nil => simp [dinsert]
  | cons kv rest ih =>
      obtain ⟨k1, v1⟩ := kv
      by_cases h : k1 = k
      · subst h
        rw [show dinsert ((k1, v1) :: rest) k1 v = (k1, v) :: rest from by simp [dinsert]]
        simp only [List.map_cons, List.mem_cons]
        tauto
      · rw [show dinsert ((k1, v1) :: rest) k v = (k1, v1) :: dinsert rest k v from by
          simp [dinsert, h]]
        simp only [List.map_cons, List.mem_cons, ih]
        tauto

/-- Assignment preserves distinctness of keys. -/
theorem nodupKeys_dinsert (m : PyNamespace) (k : Str) (v : PyVal) :
    nodupKeys m → nodupKeys (dinsert m k v) := by
  induction m with
  | nil =>
      intro _
      simp [dinsert, nodupKeys]
  | cons kv rest ih =>
      intro h
      obtain ⟨k1, v1⟩ := kv
      unfold nodupKeys at h ⊢
      rw [List.map_cons, List.nodup_cons] at h
      by_cases h1 : k1 = k
      · subst h1
        rw [show dinsert ((k1, v1) :: rest) k1 v = (k1, v) :: rest from by simp [dinsert]]
        rw [List.map_cons, List.nodup_cons]
        exact ⟨h.1, h.2⟩
      · rw [show dinsert ((k1, v1) :: rest) k v = (k1, v1) :: dinsert rest k v from by
          simp [dinsert, h1]]
        rw [List.map_cons, List.nodup_cons]
        refine ⟨?_, ih h.2⟩
        intro hmem
        rcases (mem_keys_dinsert rest k k1 v).mp hmem with h2 | hm
        · exact h1 h2
        · exact h.1 hm

/-- Saving a namespace does not touch names absent from it. -/
theorem saveVariables_keys_out (x : Str) :
    ∀ (ns vars : PyNamespace), x ∉ ns.map Prod.fst →
      dlookup (RLMEnvironment_saveVariables vars ns) x = dlookup vars x := by
  intro ns
  induction ns with
  | nil => intro vars _; rfl
  | cons kv rest ih =>
      intro vars h
      obtain ⟨k1, v1⟩ := kv
      rw [List.map_cons, List.mem_cons] at h
      push_neg at h
      have step : RLMEnvironment_saveVariables vars ((k1, v1) :: rest) =
          RLMEnvironment_saveVariables
            (if eligibleName k1 then dinsert vars k1 v1 else vars) rest := by
        by_cases he : eligibleName k1 <;> simp [RLMEnvironment_saveVariables, he]
      rw [step, ih _ h.2]
      by_cases he : eligibleName k1 <;> simp [he]
      exact dlookup_dinsert_ne vars k1 x v1 (fun hh => h.1 hh.symm)

/-- A binding with an eligible name present in the executed namespace
survives the save into the persisted variables. -/
theorem saveVariables_lookup (x : Str) (v : PyVal) (helig : eligibleName x = true) :
    ∀ (ns vars : PyNamespace), nodupKeys ns → dlookup ns x = some v →
      dlookup (RLMEnvironment_saveVariables vars ns) x = some v := by
  intro ns
  induction ns with
  | nil =>
      intro vars _ h
      simp [dlookup] at h
  | cons kv rest ih =>
      intro vars hnd hl
      obtain ⟨k1, v1⟩ := kv
      rw [nodupKeys, List.map_cons, List.nodup_cons] at hnd
      by_cases h1 : k1 = x
      · subst h1
        have hv : v1 = v := by simpa [dlookup] using hl
        subst hv
        rw [show RLMEnvironment_saveVariables vars ((k1, v1) :: rest) =
            RLMEnvironment_saveVariables (dinsert vars k1 v1) rest from by
          simp [RLMEnvironment_saveVariables, helig]]
        rw [saveVariables_keys_out k1 rest (dinsert vars k1 v1) hnd.1]
        exact dlookup_dinsert_self vars k1 v1
      · have hl2 : dlookup rest x = some v := by simpa [dlookup, h1] using hl
        rw [show RLMEnvironment_saveVariables vars ((k1, v1) :: rest) =
            RLMEnvironment_saveVariables
              (if eligibleName k1 then dinsert vars k1 v1 else vars) rest from by
          by_cases he : eligibleName k1 <;> simp [RLMEnvironment_saveVariables, he]]
        exact ih _ hnd.2 hl2

/-- Saving preserves distinctness of the persisted keys. -/
theorem nodupKeys_saveVariables :
    ∀ (ns vars : PyNamespace), nodupKeys vars →
      nodupKeys (RLMEnvironment_saveVariables vars ns) := by
  intro ns
  induction ns with
  | nil => intro vars h; exact h
  | cons kv rest ih =>
      intro vars h
      obtain ⟨k1, v1⟩ := kv
      rw [show RLMEnvironment_saveVariables vars ((k1, v1) :: rest) =
          RLMEnvironment_saveVariables
            (if eligibleName k1 then dinsert vars k1 v1 else vars) rest from by
        by_cases he : eligibleName k1 <;> simp [RLMEnvironment_saveVariables, he]]
      apply ih
      by_cases he : eligibleName k1
      · simp only [he, if_true]
        exact nodupKeys_dinsert vars k1 v1 h
      · simpa only [he, if_false] using h

/-- Updating with a dict does not touch keys absent from it. -/
theorem dupdate_keys_out (x : Str) :
    ∀ (o m : PyNamespace), x ∉ o.map Prod.fst → dlookup (dupdate m o) x = dlookup m x := by
  intro o
  induction o with
  | nil => intro m _; rfl
  | cons kv rest ih =>
      intro m h
      obtain ⟨k1, v1⟩ := kv
      rw [List.map_cons, List.mem_cons] at h
      push_neg at h
      rw [show dupdate m ((k1, v1) :: rest) = dupdate (dinsert m k1 v1) rest from rfl]
      rw [ih _ h.2]
      exact dlookup_dinsert_ne m k1 x v1 (fun hh => h.1 hh.symm)

/-- A key bound by the updating dict looks up to its value after the update. -/
theorem dupdate_lookup (x : Str) (v : PyVal) :
    ∀ (o m : PyNamespace), nodupKeys o → dlookup o x = some v →
      dlookup (dupdate m o) x = some v := by
  intro o
  induction o with
  | nil =>
      intro m _ h
      simp [dlookup] at h
  | cons kv rest ih =>
      intro m hnd hl
      obtain ⟨k1, v1⟩ := kv
      rw [nodupKeys, List.map_cons, List.nodup_cons] at hnd
      by_cases h1 : k1 = x
      · subst h1
        have hv : v1 = v := by simpa [dlookup] using hl
        subst hv
        rw [show dupdate m ((k1, v1) :: rest) = dupdate (dinsert m k1 v1) rest from rfl]
        rw [dupdate_keys_out k1 rest (dinsert m k1 v1) hnd.1]
        exact dlookup_dinsert_self m k1 v1
      · have hl2 : dlookup rest x = some v := by simpa [dlookup, h1] using hl
        exact ih (dinsert m k1 v1) hnd.2 hl2

/-- Lookup misses any key absent from the dict. -/
theorem dlookup_eq_none_of_notmem (x : Str) :
    ∀ m : PyNamespace, x ∉ m.map Prod.fst → dlookup m x = none := by
  intro m
  induction m with
  | nil => intro _; rfl
  | cons kv rest ih =>
      intro h
      obtain ⟨k1, v1⟩ := kv
      rw [List.map_cons, List.mem_cons] at h
      push_neg at h
      have hne : ¬k1 = x := fun hh => h.1 hh.symm
      simp [dlookup, hne, ih h.2]

/-- A name outside the skip set is not a fixed binding of the base
namespace. -/
theorem base_lookup_none (context q x : Str) (hx : skipNames.contains x = false) :
    dlookup (baseNamespace context q) x = none := by
  apply dlookup_eq_none_of_notmem
  intro hmem
  simp [baseNamespace] at hmem
  rcases hmem with rfl|rfl|rfl|rfl|rfl|rfl|rfl|rfl|rfl|rfl|rfl|
    rfl|rfl|rfl|rfl|rfl|rfl|rfl|rfl|rfl|rfl|rfl <;> revert hx <;> decide

/-- Claim C6 counterexample: the name with a leading underscore is not one
of the fixed bindings, yet a binding to it made by a completed fragment is
not persisted and is invisible to the next fragment, contradicting the
claim that every name other than the fixed bindings persists. -/
theorem c6_counterexample_underscore :
    skipNames.contains ("_x".data) = false ∧
    dlookup [("_x".data, PyVal.vint 5)] ("_x".data) = some (PyVal.vint 5) ∧
    dlookup (buildNamespace ("doc".data) ("q".data)
      (RLMEnvironment_saveVariables [] [("_x".data, PyVal.vint 5)])) ("_x".data) = none := by
  decide

/-- Claim C6 amended: for every name outside the skip set that does not
start with an underscore, a value bound to it in the namespace a fragment
leaves behind is visible unmodified, under the same name, in the namespace
built for the next fragment of the same run; and no such name is visible in
the namespace of a fresh run, whose persisted variables start empty. -/
theorem c6_persistence_amended (context q : Str) (vars ns : PyNamespace) (x : Str)
    (v : PyVal) (helig : eligibleName x = true) (hns : nodupKeys ns)
    (hvars : nodupKeys vars) (hx : dlookup ns x = some v) :
    dlookup (buildNamespace context q (RLMEnvironment_saveVariables vars ns)) x = some v ∧
    dlookup (buildNamespace context q []) x = none := by
  have hskip : skipNames.contains x = false := by
    simp only [eligibleName, Bool.and_eq_true, Bool.not_eq_true'] at helig
    exact helig.1
  constructor
  · unfold buildNamespace
    exact dupdate_lookup x v _ _ (nodupKeys_saveVariables ns vars hvars)
      (saveVariables_lookup x v helig ns vars hns hx)
  · show dlookup (baseNamespace context q) x = none
    exact base_lookup_none context q x hskip

/-- Claim C6 witness: a themes binding left by a fragment is visible in the
next namespace of the same run and invisible in a fresh run. -/
theorem c6_witness :
    dlookup (buildNamespace cW qW (RLMEnvironment_saveVariables []
      [("themes".data, PyVal.vstr ("ai".data))])) ("themes".data)
      = some (PyVal.vstr ("ai".data)) ∧
    dlookup (buildNamespace cW qW []) ("themes".data) = none :=
  c6_persistence_amended cW qW [] [("themes".data, PyVal.vstr ("ai".data))]
    ("themes".data) (PyVal.vstr ("ai".data)) (by decide) (by decide) (by decide) (by decide)

/-- Dropping a prefix never lengthens a list. -/
theorem length_dropWhile_le_self (p : Char → Bool) :
    ∀ s : Str, (s.dropWhile p).length ≤ s.length := by
  intro s
  induction s with
  | nil => simp
  | cons a l ih =>
      rw [List.dropWhile_cons]
      by_cases h : p a
      · simp only [h, if_true]
        exact le_trans ih (Nat.le_succ _)
      · simp [h]

/-- Stripping never lengthens a string. -/
theorem pyStrip_length_le (s : Str) : (pyStrip s).length ≤ s.length := by
  unfold pyStrip
  calc ((s.dropWhile isPyWS).reverse.dropWhile isPyWS).reverse.length
      = ((s.dropWhile isPyWS).reverse.dropWhile isPyWS).length := List.length_reverse _
    _ ≤ (s.dropWhile isPyWS).reverse.length := length_dropWhile_le_self _ _
    _ = (s.dropWhile isPyWS).length := List.length_reverse _
    _ ≤ s.length := length_dropWhile_le_self _ _

/-- Joining one paragraph onto the end of a nonempty block. -/
theorem joinSep_append_single (run : List Str) (p : Str) (h : run ≠ []) :
    joinSep (run ++ [p]) = joinSep run ++ "\n\n".data ++ p := by
  cases run with
  | nil => exact absurd rfl h
  | cons a rs =>
      rw [show joinSep ((a :: rs) ++ [p]) =
          (rs ++ [p]).foldl (fun acc q => acc ++ "\n\n".data ++ q) a from rfl]
      rw [List.foldl_append]
      rfl

/-- Invariant of the paragraph-grouping loop: every emitted chunk is the
stripped separator-join of a nonempty consecutive block of whole paragraphs
(within two characters of the chunk size unless it descends from one whole
paragraph), and the accumulator is empty or the separator-join of a
nonempty block ending right where the remaining paragraphs start. -/
theorem split_fold_paragraphs (cs : Nat) (allP : List Str) :
    ∀ (rest chunks : List Str) (cur : Str),
      (∃ preR, allP = preR ++ rest) →
      (∀ ch ∈ chunks, GoodChunk cs allP ch) →
      GoodCur cs allP rest cur →
      (∀ ch ∈ (rest.foldl (RecursiveSummarizer_splitStep cs) (chunks, cur)).1,
         GoodChunk cs allP ch) ∧
      GoodCur cs allP [] (rest.foldl (RecursiveSummarizer_splitStep cs) (chunks, cur)).2 := by
  intro rest
  induction rest with
  | nil => exact fun chunks cur _ hch hcur => ⟨hch, hcur⟩
  | cons para rest ih =>
      intro chunks cur hsuf hch hcur
      obtain ⟨preR, hpreR⟩ := hsuf
      have hsuf2 : ∃ preR2, allP = preR2 ++ rest :=
        ⟨preR ++ [para], by rw [hpreR]; simp⟩
      have hcurNew : GoodCur cs allP rest para :=
        Or.inr ⟨[para], preR, by simp, rfl, by rw [hpreR]; simp, Or.inr rfl⟩
      rw [List.foldl_cons]
      by_cases hov : cs < cur.length + para.length
      · rw [show RecursiveSummarizer_splitStep cs (chunks, cur) para =
            (if cur = [] then chunks else chunks ++ [pyStrip cur], para) from by
          simp [RecursiveSummarizer_splitStep, hov]]
        refine ih _ _ hsuf2 ?_ hcurNew
        by_cases hc : cur = []
        · rw [if_pos hc]
          exact hch
        · rw [if_neg hc]
          intro ch hm
          rcases List.mem_append.mp hm with hm1 | hm2
          · exact hch ch hm1
          · rw [List.mem_singleton.mp hm2]
            rcases hcur with rfl | ⟨run, pre, hne, hjoin, hdecomp, hlen⟩
            · exact absurd rfl hc
            · refine ⟨⟨run, hne, ⟨pre, para :: rest, hdecomp⟩, by rw [hjoin]⟩, ?_⟩
              rcases hlen with hlen | hrun
              · exact Or.inl (le_trans (pyStrip_length_le cur) hlen)
              · refine Or.inr ⟨cur, ?_, rfl⟩
                rw [hdecomp, hrun]
                simp
      · rw [show RecursiveSummarizer_splitStep cs (chunks, cur) para =
            (chunks, if cur = [] then para else cur ++ "\n\n".data ++ para) from by
          simp [RecursiveSummarizer_splitStep, hov]]
        push_neg at hov
        refine ih _ _ hsuf2 hch ?_
        by_cases hc : cur = []
        · rw [if_pos hc]
          exact hcurNew
        · rw [if_neg hc]
          rcases hcur with rfl | ⟨run, pre, hne, hjoin, hdecomp, hlen⟩
          · exact absurd rfl hc
          · refine Or.inr ⟨run ++ [para], pre, by simp, ?_, ?_, Or.inl ?_⟩
            · rw [joinSep_append_single run para hne, hjoin]
            · rw [hdecomp]
              simp
            · have hsep : ("\n\n".data : Str).length = 2 := rfl
              have hlen2 : (cur ++ "\n\n".data ++ para).length =
                  cur.length + 2 + para.length := by
                rw [List.length_append, List.length_append, hsep]
              rw [hlen2]
              omega

/-- Claim C7 counterexample: with chunk size 10, the two five-character
paragraphs are joined into a single chunk of length 12 — the paragraph
separator two characters are not counted against the chunk size — even
though no single paragraph exceeds 10. -/
theorem c7_counterexample_overflow :
    (∃ ch ∈ RecursiveSummarizer_split 10 ("aaaaa\n\nbbbbb".data), 10 < ch.length) ∧
    ∀ p ∈ splitParas ("aaaaa\n\nbbbbb".data) [], p.length ≤ 10 := by
  decide

/-- Claim C7 amended: the splitter splits the input on paragraph
boundaries and never splits a paragraph — every chunk is the stripped
separator-join of a nonempty consecutive block of whole input paragraphs —
and every chunk either has length at most the chunk size plus two (the
joining paragraph separator is not counted against the budget by the
overflow test) or is the stripped form of a single paragraph that alone
exceeds the chunk size and is emitted whole as its own chunk. -/
theorem c7_chunk_bound_amended (cs : Nat) (text : Str) :
    ∀ ch ∈ RecursiveSummarizer_split cs text,
      (∃ run, run ≠ [] ∧ consecRun (splitParas text []) run ∧
        ch = pyStrip (joinSep run)) ∧
      (ch.length ≤ cs + 2 ∨
        ∃ p ∈ splitParas text [], ch = pyStrip p ∧ cs < p.length) := by
  intro ch hch
  have main := split_fold_paragraphs cs (splitParas text []) (splitParas text []) [] []
    ⟨[], rfl⟩ (fun a ha => absurd ha (List.not_mem_nil a)) (Or.inl rfl)
  have upgrade : ∀ c0 : Str,
      (c0.length ≤ cs + 2 ∨ ∃ p ∈ splitParas text [], c0 = pyStrip p) →
      c0.length ≤ cs + 2 ∨ ∃ p ∈ splitParas text [], c0 = pyStrip p ∧ cs < p.length := by
    intro c0 hc0
    rcases hc0 with h1 | ⟨p, hp, rfl⟩
    · exact Or.inl h1
    · by_cases hlen : p.length ≤ cs
      · exact Or.inl (le_trans (pyStrip_length_le p) (le_trans hlen (Nat.le_add_right cs 2)))
      · exact Or.inr ⟨p, hp, rfl, by omega⟩
  simp only [RecursiveSummarizer_split] at hch
  set acc := (splitParas text []).foldl (RecursiveSummarizer_splitStep cs) ([], []) with hacc
  by_cases hs : pyStrip acc.2 = []
  · rw [if_pos hs] at hch
    obtain ⟨h1, h2⟩ := main.1 ch hch
    exact ⟨h1, upgrade ch h2⟩
  · rw [if_neg hs] at hch
    rcases List.mem_append.mp hch with hm | hm
    · obtain ⟨h1, h2⟩ := main.1 ch hm
      exact ⟨h1, upgrade ch h2⟩
    · rw [List.mem_singleton.mp hm]
      rcases main.2 with h0 | ⟨run, pre, hne, hjoin, hdecomp, hlen⟩
      · exact absurd (by rw [h0]; rfl) hs
      · refine ⟨⟨run, hne, ⟨pre, [], hdecomp⟩, by rw [hjoin]⟩, ?_⟩
        rcases hlen with hlen | hrun
        · exact Or.inl (le_trans (pyStrip_length_le acc.2) hlen)
        · refine upgrade _ (Or.inr ⟨acc.2, ?_, rfl⟩)
          rw [hdecomp, hrun]
          simp

/-- Claim C7 witness: a single small paragraph forms one chunk that is the
stripped join of a consecutive one-paragraph block and lies within the
amended bound. -/
theorem c7_witness :
    ((∃ run, run ≠ [] ∧ consecRun (splitParas ("hello".data) []) run ∧
        "hello".data = pyStrip (joinSep run)) ∧
     (("hello".data).length ≤ 10 + 2 ∨
      ∃ p ∈ splitParas ("hello".data) [], "hello".data = pyStrip p ∧ 10 < p.length)) :=
  c7_chunk_bound_amended 10 ("hello".data) ("hello".data) (by decide)

/-- Counting a kind over a one-step trace. -/
theorem countKind_single (k t cnt : Str) (d : Int) :
    countKind k [⟨t, cnt, d⟩] = if t = k then 1 else 0 := by
  simp [countKind, List.countP_cons]

/-- The invariant holds at the start of a run. -/
theorem stInv_init (q c : Str) : StInv (initLoopSt q c) 0 := by
  refine ⟨rfl, rfl, rfl, rfl⟩

/-- An iteration whose response extracts to nothing returns the response as
the final answer. -/
theorem iterOnce_eq_none (cl : Client) (pe : PyExec) (q c : Str) (st : LoopSt)
    (hE : RLMEngine_extractCode (cl st.callIdx st.prompt) = none) :
    RLMEngine_iterOnce cl pe q c st = StepRes.finished
      (finalReturn q c ⟨st.steps, st.llmCalls + 1, st.callIdx + 1⟩
        (cl st.callIdx st.prompt)) := by
  simp only [RLMEngine_iterOnce, hE]

/-- An iteration whose response extracts to the empty fragment also returns
the response as the final answer (Python falsiness of the empty string). -/
theorem iterOnce_eq_empty (cl : Client) (pe : PyExec) (q c : Str) (st : LoopSt)
    (hE : RLMEngine_extractCode (cl st.callIdx st.prompt) = some []) :
    RLMEngine_iterOnce cl pe q c st = StepRes.finished
      (finalReturn q c ⟨st.steps, st.llmCalls + 1, st.callIdx + 1⟩
        (cl st.callIdx st.prompt)) := by
  simp only [RLMEngine_iterOnce, hE]

/-- An iteration with a nonempty extracted fragment records the code step
and dispatches on the outcome of executing the fragment. -/
theorem iterOnce_eq_code (cl : Client) (pe : PyExec) (q c : Str) (st : LoopSt)
    (ch : Char) (chs : Str)
    (hE : RLMEngine_extractCode (cl st.callIdx st.prompt) = some (ch :: chs)) :
    RLMEngine_iterOnce cl pe q c st =
      (match RLMEnvironment_execute cl st.vars (pe (ch :: chs) (buildNamespace c q st.vars))
          ⟨st.steps ++ [⟨"code".data, ch :: chs, 0⟩], st.llmCalls + 1, st.callIdx + 1⟩ with
       | (ExecRet.output out, vars2, st3) =>
           StepRes.cont ⟨vars2, st3.steps ++ [⟨"output".data, out, 0⟩],
             st3.llmCalls, st3.callIdx,
             Prompt.followup (if out = [] then ("(no output)".data) else out)⟩
       | (ExecRet.raiseFinal a, _, st3) =>
           StepRes.finished
             ⟨q, c.length, a, st3.steps ++ [⟨"final".data, a, 0⟩],
              st3.llmCalls, true, none⟩) := by
  simp only [RLMEngine_iterOnce, hE]

/-- One completed iteration advances the step counts by one code step, one
output step, no final step, and the recorded sub-query steps. -/
theorem stinv_step (st : LoopSt) (j : Nat) (hI : StInv st j) (code out : Str)
    (L : List RLMStep) (stQ : CallSt) (vars2 : PyNamespace) (cIdx : Nat) (pr : Prompt)
    (hsteps : stQ.steps = (st.steps ++ [⟨"code".data, code, 0⟩]) ++ L)
    (hcalls : stQ.llmCalls = (st.llmCalls + 1) + L.length)
    (hall : ∀ s ∈ L, s.step_type = "llm_call".data) :
    StInv ⟨vars2, stQ.steps ++ [⟨"output".data, out, 0⟩], stQ.llmCalls, cIdx, pr⟩ (j + 1) := by
  obtain ⟨hIc, hIo, hIf, hIl⟩ := hI
  have hLllm : countKind ("llm_call".data) L = L.length :=
    countKind_eq_length _ L hall
  have hLcode : countKind ("code".data) L = 0 :=
    countKind_eq_zero _ L (fun s hs => by rw [hall s hs]; decide)
  have hLout : countKind ("output".data) L = 0 :=
    countKind_eq_zero _ L (fun s hs => by rw [hall s hs]; decide)
  have hLfin : countKind ("final".data) L = 0 :=
    countKind_eq_zero _ L (fun s hs => by rw [hall s hs]; decide)
  refine ⟨?_, ?_, ?_, ?_⟩
  · show countKind ("code".data) (stQ.steps ++ [⟨"output".data, out, 0⟩]) = j + 1
    rw [hsteps, countKind_append, countKind_append, countKind_append, hIc, hLcode,
      countKind_single, countKind_single, if_pos rfl,
      if_neg (show ¬("output".data = "code".data) from by decide)]
  · show countKind ("output".data) (stQ.steps ++ [⟨"output".data, out, 0⟩]) = j + 1
    rw [hsteps, countKind_append, countKind_append, countKind_append, hIo, hLout,
      countKind_single, countKind_single, if_pos rfl,
      if_neg (show ¬("code".data = "output".data) from by decide)]
  · show countKind ("final".data) (stQ.steps ++ [⟨"output".data, out, 0⟩]) = 0
    rw [hsteps, countKind_append, countKind_append, countKind_append, hIf, hLfin,
      countKind_single, countKind_single,
      if_neg (show ¬("code".data = "final".data) from by decide),
      if_neg (show ¬("output".data = "final".data) from by decide)]
  · show stQ.llmCalls =
      (j + 1) + countKind ("llm_call".data) (stQ.steps ++ [⟨"output".data, out, 0⟩])
    rw [hcalls, hsteps, countKind_append, countKind_append, countKind_append, hLllm,
      countKind_single, countKind_single,
      if_neg (show ¬("code".data = "llm_call".data) from by decide),
      if_neg (show ¬("output".data = "llm_call".data) from by decide)]
    omega

/-- A continuing iteration preserves and advances the loop invariant. -/
theorem iterOnce_cont_inv (cl : Client) (pe : PyExec) (q c : Str) (st st1 : LoopSt)
    (j : Nat) (h : RLMEngine_iterOnce cl pe q c st = StepRes.cont st1)
    (hI : StInv st j) : StInv st1 (j + 1) := by
  rcases hE : RLMEngine_extractCode (cl st.callIdx st.prompt) with _ | code
  · rw [iterOnce_eq_none cl pe q c st hE] at h
    cases h
  rcases code with _ | ⟨ch, chs⟩
  · rw [iterOnce_eq_empty cl pe q c st hE] at h
    cases h
  rw [iterOnce_eq_code cl pe q c st ch chs hE] at h
  obtain ⟨L, hL, hall⟩ :=
    runFragAct_frame cl st.vars (pe (ch :: chs) (buildNamespace c q st.vars))
      ⟨st.steps ++ [⟨"code".data, ch :: chs, 0⟩], st.llmCalls + 1, st.callIdx + 1⟩
  rcases hR : runFragAct cl st.vars (pe (ch :: chs) (buildNamespace c q st.vars))
      ⟨st.steps ++ [⟨"code".data, ch :: chs, 0⟩], st.llmCalls + 1, st.callIdx + 1⟩
    with ⟨outc, stQ⟩
  rw [hR] at hL
  have hsteps : stQ.steps = (st.steps ++ [⟨"code".data, ch :: chs, 0⟩]) ++ L :=
    congrArg CallSt.steps hL
  have hcalls : stQ.llmCalls = (st.llmCalls + 1) + L.length :=
    congrArg CallSt.llmCalls hL
  rcases outc with ⟨ns, out⟩ | e
  · rw [show RLMEnvironment_execute cl st.vars (pe (ch :: chs) (buildNamespace c q st.vars))
        ⟨st.steps ++ [⟨"code".data, ch :: chs, 0⟩], st.llmCalls + 1, st.callIdx + 1⟩ =
        (ExecRet.output out, RLMEnvironment_saveVariables st.vars ns, stQ) from by
      simp [RLMEnvironment_execute, hR]] at h
    injection h with h
    rw [← h]
    exact stinv_step st j hI (ch :: chs) out L stQ _ _ _ hsteps hcalls
      (fun s hs => (hall s hs).1)
  rcases e with a | ⟨kind, msg⟩
  · rw [show RLMEnvironment_execute cl st.vars (pe (ch :: chs) (buildNamespace c q st.vars))
        ⟨st.steps ++ [⟨"code".data, ch :: chs, 0⟩], st.llmCalls + 1, st.callIdx + 1⟩ =
        (ExecRet.raiseFinal a, st.vars, stQ) from by
      simp [RLMEnvironment_execute, hR]] at h
    cases h
  · rw [show RLMEnvironment_execute cl st.vars (pe (ch :: chs) (buildNamespace c q st.vars))
        ⟨st.steps ++ [⟨"code".data, ch :: chs, 0⟩], st.llmCalls + 1, st.callIdx + 1⟩ =
        (ExecRet.output (errText kind msg), st.vars, stQ) from by
      simp [RLMEnvironment_execute, hR]] at h
    injection h with h
    rw [← h]
    exact stinv_step st j hI (ch :: chs) (errText kind msg) L stQ _ _ _ hsteps hcalls
      (fun s hs => (hall s hs).1)

/-- n completed iterations advance the invariant by n. -/
theorem iterN_inv (cl : Client) (pe : PyExec) (q c : Str) :
    ∀ (n : Nat) (st st1 : LoopSt) (j : Nat),
      RLMEngine_iterN cl pe q c n st = some st1 → StInv st j → StInv st1 (j + n) := by
  intro n
  induction n with
  | zero =>
      intro st st1 j h hI
      have h2 : st = st1 := by simpa [RLMEngine_iterN] using h
      rw [← h2]
      exact hI
  | succ n ih =>
      intro st st1 j h hI
      rcases hio : RLMEngine_iterOnce cl pe q c st with st2 | r
      · have h2 : RLMEngine_iterN cl pe q c n st2 = some st1 := by
          simpa [RLMEngine_iterN, hio] using h
        have h3 := ih st2 st1 (j + 1) h2 (iterOnce_cont_inv cl pe q c st st2 j hio hI)
        rwa [show (j + 1) + n = j + (n + 1) from by omega] at h3
      · simp [RLMEngine_iterN, hio] at h

/-- n completed iterations commute with the fuelled loop. -/
theorem iterN_runLoop (cl : Client) (pe : PyExec) (q c : Str) :
    ∀ (n : Nat) (st st1 : LoopSt), RLMEngine_iterN cl pe q c n st = some st1 →
      ∀ fuel, RLMEngine_runLoop cl pe q c (n + fuel) st =
        RLMEngine_runLoop cl pe q c fuel st1 := by
  intro n
  induction n with
  | zero =>
      intro st st1 h fuel
      have h2 : st = st1 := by simpa [RLMEngine_iterN] using h
      rw [Nat.zero_add, h2]
  | succ n ih =>
      intro st st1 h fuel
      rcases hio : RLMEngine_iterOnce cl pe q c st with st2 | r
      · have h2 : RLMEngine_iterN cl pe q c n st2 = some st1 := by
          simpa [RLMEngine_iterN, hio] using h
        rw [show (n + 1) + fuel = (n + fuel) + 1 from by omega]
        rw [show RLMEngine_runLoop cl pe q c ((n + fuel) + 1) st =
            (match RLMEngine_iterOnce cl pe q c st with
             | StepRes.finished r => r
             | StepRes.cont s => RLMEngine_runLoop cl pe q c (n + fuel) s) from rfl]
        rw [hio]
        exact ih st2 st1 h2 fuel
      · simp [RLMEngine_iterN, hio] at h

/-- Claim C2: for any iteration budget N of at least 1, a run whose every
response yields an executable fragment and whose fragments never invoke
termination completes after exactly N code-generation calls (N code steps,
and a call total of N plus one call per recorded sub-query step), returning
success false, the fixed sentinel final answer, the budget-exhausted error,
and preserving all accumulated steps. -/
theorem c2_budget_exhaustion (cl : Client) (pe : PyExec) (q c : Str) (N : Nat)
    (stN : LoopSt) (hN : 1 ≤ N)
    (hreach : RLMEngine_iterN cl pe q c N (initLoopSt q c) = some stN) :
    RLMEngine_run cl pe q c N =
      ⟨q, c.length, sentinelAnswer, stN.steps, stN.llmCalls, false, some maxIterError⟩ ∧
    countKind ("code".data) stN.steps = N ∧
    stN.llmCalls = N + countKind ("llm_call".data) stN.steps := by
  have hinv := iterN_inv cl pe q c N (initLoopSt q c) stN 0 hreach (stInv_init q c)
  rw [show 0 + N = N from by omega] at hinv
  refine ⟨?_, hinv.1, hinv.2.2.2⟩
  unfold RLMEngine_run
  have h2 := iterN_runLoop cl pe q c N (initLoopSt q c) stN hreach 0
  rw [show N + 0 = N from by omega] at h2
  rw [h2]
  rfl

/-- Claim C2 witness: with budget 2 and fragments that never terminate, the
run returns the sentinel with success false after exactly 2 code steps. -/
theorem c2_witness :
    (RLMEngine_run clientCode execNop qW cW 2).success = false ∧
    (RLMEngine_run clientCode execNop qW cW 2).final_answer = sentinelAnswer ∧
    (RLMEngine_run clientCode execNop qW cW 2).error = some maxIterError ∧
    countKind ("code".data) (RLMEngine_run clientCode execNop qW cW 2).steps = 2 := by
  have h := c2_budget_exhaustion clientCode execNop qW cW 2 stN2 (by omega) (by decide)
  rw [h.1]
  exact ⟨rfl, rfl, rfl, h.2.1⟩

/-- Claim C1: if, after k-1 completed iterations, the k-th generated
fragment raises the termination signal carrying the text of v, the run
returns immediately: the final answer is the text of v, success is true,
there are exactly k code steps, at most k output steps, and exactly one
final step which is the last step of the trace; and the call total equals
the k code-generation calls plus one call per recorded sub-query step, so
no Model Client call occurs after the termination. -/
theorem c1_termination_run (cl : Client) (pe : PyExec) (q c : Str) (maxIter k : Nat)
    (st : LoopSt) (st3 : CallSt) (v : PyVal) (code : Str)
    (hk : 1 ≤ k) (hle : k ≤ maxIter)
    (hreach : RLMEngine_iterN cl pe q c (k - 1) (initLoopSt q c) = some st)
    (hcode : RLMEngine_extractCode (cl st.callIdx st.prompt) = some code)
    (hne : code ≠ [])
    (hfinal : runFragAct cl st.vars (pe code (buildNamespace c q st.vars))
        ⟨st.steps ++ [⟨"code".data, code, 0⟩], st.llmCalls + 1, st.callIdx + 1⟩
      = (FragOutcome.raised (Exc.finalAnswer (pyStr v)), st3)) :
    (RLMEngine_run cl pe q c maxIter).final_answer = pyStr v ∧
    (RLMEngine_run cl pe q c maxIter).success = true ∧
    countKind ("code".data) (RLMEngine_run cl pe q c maxIter).steps = k ∧
    countKind ("output".data) (RLMEngine_run cl pe q c maxIter).steps ≤ k ∧
    countKind ("final".data) (RLMEngine_run cl pe q c maxIter).steps = 1 ∧
    (RLMEngine_run cl pe q c maxIter).steps.getLast? = some ⟨"final".data, pyStr v, 0⟩ ∧
    (RLMEngine_run cl pe q c maxIter).total_llm_calls =
      k + countKind ("llm_call".data) (RLMEngine_run cl pe q c maxIter).steps := by
  obtain ⟨ch, chs, rfl⟩ : ∃ ch chs, code = ch :: chs := by
    cases code with
    | nil => exact absurd rfl hne
    | cons a b => exact ⟨a, b, rfl⟩
  have hio : RLMEngine_iterOnce cl pe q c st = StepRes.finished
      ⟨q, c.length, pyStr v, st3.steps ++ [⟨"final".data, pyStr v, 0⟩],
       st3.llmCalls, true, none⟩ := by
    rw [iterOnce_eq_code cl pe q c st ch chs hcode]
    rw [show RLMEnvironment_execute cl st.vars (pe (ch :: chs) (buildNamespace c q st.vars))
        ⟨st.steps ++ [⟨"code".data, ch :: chs, 0⟩], st.llmCalls + 1, st.callIdx + 1⟩ =
        (ExecRet.raiseFinal (pyStr v), st.vars, st3) from by
      simp [RLMEnvironment_execute, hfinal]]
  have hrun : RLMEngine_run cl pe q c maxIter =
      ⟨q, c.length, pyStr v, st3.steps ++ [⟨"final".data, pyStr v, 0⟩],
       st3.llmCalls, true, none⟩ := by
    unfold RLMEngine_run
    rw [show maxIter = (k - 1) + ((maxIter - k) + 1) from by omega,
      iterN_runLoop cl pe q c (k - 1) (initLoopSt q c) st hreach ((maxIter - k) + 1)]
    rw [show RLMEngine_runLoop cl pe q c ((maxIter - k) + 1) st =
        (match RLMEngine_iterOnce cl pe q c st with
         | StepRes.finished r => r
         | StepRes.cont s => RLMEngine_runLoop cl pe q c (maxIter - k) s) from rfl]
    rw [hio]
  have hinv : StInv st (k - 1) := by
    have h2 := iterN_inv cl pe q c (k - 1) (initLoopSt q c) st 0 hreach (stInv_init q c)
    rwa [show 0 + (k - 1) = k - 1 from by omega] at h2
  obtain ⟨hIc, hIo, hIf, hIl⟩ := hinv
  obtain ⟨L, hL, hall⟩ :=
    runFragAct_frame cl st.vars (pe (ch :: chs) (buildNamespace c q st.vars))
      ⟨st.steps ++ [⟨"code".data, ch :: chs, 0⟩], st.llmCalls + 1, st.callIdx + 1⟩
  rw [hfinal] at hL
  have hsteps : st3.steps = (st.steps ++ [⟨"code".data, ch :: chs, 0⟩]) ++ L :=
    congrArg CallSt.steps hL
  have hcalls : st3.llmCalls = (st.llmCalls + 1) + L.length :=
    congrArg CallSt.llmCalls hL
  have hLllm : countKind ("llm_call".data) L = L.length :=
    countKind_eq_length _ L (fun s hs => (hall s hs).1)
  have hLcode : countKind ("code".data) L = 0 :=
    countKind_eq_zero _ L (fun s hs => by rw [(hall s hs).1]; decide)
  have hLout : countKind ("output".data) L = 0 :=
    countKind_eq_zero _ L (fun s hs => by rw [(hall s hs).1]; decide)
  have hLfin : countKind ("final".data) L = 0 :=
    countKind_eq_zero _ L (fun s hs => by rw [(hall s hs).1]; decide)
  rw [hrun]
  refine ⟨rfl, rfl, ?_, ?_, ?_, ?_, ?_⟩
  · show countKind ("code".data) (st3.steps ++ [⟨"final".data, pyStr v, 0⟩]) = k
    rw [hsteps, countKind_append, countKind_append, countKind_append, hIc, hLcode,
      countKind_single, countKind_single, if_pos rfl,
      if_neg (show ¬("final".data = "code".data) from by decide)]
    omega
  · show countKind ("output".data) (st3.steps ++ [⟨"final".data, pyStr v, 0⟩]) ≤ k
    rw [hsteps, countKind_append, countKind_append, countKind_append, hIo, hLout,
      countKind_single, countKind_single,
      if_neg (show ¬("code".data = "output".data) from by decide),
      if_neg (show ¬("final".data = "output".data) from by decide)]
    omega
  · show countKind ("final".data) (st3.steps ++ [⟨"final".data, pyStr v, 0⟩]) = 1
    rw [hsteps, countKind_append, countKind_append, countKind_append, hIf, hLfin,
      countKind_single, countKind_single, if_pos rfl,
      if_neg (show ¬("code".data = "final".data) from by decide)]
  · show (st3.steps ++ [RLMStep.mk ("final".data) (pyStr v) 0]).getLast? =
      some (RLMStep.mk ("final".data) (pyStr v) 0)
    exact List.getLast?_concat _
  · show st3.llmCalls =
      k + countKind ("llm_call".data) (st3.steps ++ [⟨"final".data, pyStr v, 0⟩])
    rw [hcalls, hsteps, countKind_append, countKind_append, countKind_append, hLllm,
      countKind_single, countKind_single,
      if_neg (show ¬("code".data = "llm_call".data) from by decide),
      if_neg (show ¬("final".data = "llm_call".data) from by decide)]
    omega

/-- Claim C1 witness: the first fragment calls FINAL with the string 42; the
run returns it with one code step, no output step, one trailing final step,
and one total call. -/
theorem c1_witness :
    (RLMEngine_run clientFinal execFinal qW cW 3).final_answer = "42".data ∧
    (RLMEngine_run clientFinal execFinal qW cW 3).success = true ∧
    countKind ("code".data) (RLMEngine_run clientFinal execFinal qW cW 3).steps = 1 ∧
    countKind ("output".data) (RLMEngine_run clientFinal execFinal qW cW 3).steps ≤ 1 ∧
    countKind ("final".data) (RLMEngine_run clientFinal execFinal qW cW 3).steps = 1 ∧
    (RLMEngine_run clientFinal execFinal qW cW 3).steps.getLast? =
      some ⟨"final".data, "42".data, 0⟩ ∧
    (RLMEngine_run clientFinal execFinal qW cW 3).total_llm_calls =
      1 + countKind ("llm_call".data) (RLMEngine_run clientFinal execFinal qW cW 3).steps :=
  c1_termination_run clientFinal execFinal qW cW 3 1 (initLoopSt qW cW)
    ⟨[⟨"code".data, "FINAL(42)".data, 0⟩], 1, 1⟩ (PyVal.vstr ("42".data))
    ("FINAL(42)".data) (by omega) (by omega) (by decide) (by decide) (by decide) (by decide)

/-- Claim C8: when the response at any reached iteration contains no
extractable code fragment (or only an empty one), the entire response
becomes the literal final answer: one final step is appended, success is
true, and the call total is the calls so far plus this single
code-generation call — the run returns immediately. -/
theorem c8_prose_final (cl : Client) (pe : PyExec) (q c : Str) (maxIter j : Nat)
    (st : LoopSt) (hj : j < maxIter)
    (hreach : RLMEngine_iterN cl pe q c j (initLoopSt q c) = some st)
    (hnone : RLMEngine_extractCode (cl st.callIdx st.prompt) = none ∨
             RLMEngine_extractCode (cl st.callIdx st.prompt) = some []) :
    RLMEngine_run cl pe q c maxIter =
      ⟨q, c.length, cl st.callIdx st.prompt,
       st.steps ++ [⟨"final".data, cl st.callIdx st.prompt, 0⟩],
       st.llmCalls + 1, true, none⟩ := by
  have hio : RLMEngine_iterOnce cl pe q c st = StepRes.finished
      (finalReturn q c ⟨st.steps, st.llmCalls + 1, st.callIdx + 1⟩
        (cl st.callIdx st.prompt)) := by
    rcases hnone with hE | hE
    · exact iterOnce_eq_none cl pe q c st hE
    · exact iterOnce_eq_empty cl pe q c st hE
  unfold RLMEngine_run
  rw [show maxIter = j + ((maxIter - j - 1) + 1) from by omega,
    iterN_runLoop cl pe q c j (initLoopSt q c) st hreach ((maxIter - j - 1) + 1)]
  rw [show RLMEngine_runLoop cl pe q c ((maxIter - j - 1) + 1) st =
      (match RLMEngine_iterOnce cl pe q c st with
       | StepRes.finished r => r
       | StepRes.cont s => RLMEngine_runLoop cl pe q c (maxIter - j - 1) s) from rfl]
  rw [hio]
  rfl

/-- Claim C8 witness: with every response plain prose, the run ends on the
first iteration with the response as the final answer and exactly one Model
Client call. -/
theorem c8_witness :
    RLMEngine_run clientProse execNop qW cW 3 =
      ⟨qW, cW.length, "The answer is Paris.".data,
       [⟨"final".data, "The answer is Paris.".data, 0⟩], 1, true, none⟩ ∧
    (RLMEngine_run clientProse execNop qW cW 3).total_llm_calls = 1 := by
  have h := c8_prose_final clientProse execNop qW cW 3 0 (initLoopSt qW cW)
    (by omega) (by decide) (Or.inl (by decide))
  exact ⟨h, by rw [h]; rfl⟩
